import Mathlib

/-!
# Verification of `src/knights_tour.py`

A shallow embedding of the knight's-tour solver.  The Python program fixes a
board size constant `BOARD_SIZE` at the top of the file; the embedding makes
that constant an explicit parameter `N`, and likewise the derived constants
`FORMAT_SIZE` (here `formatSize N`, or a parameter `w`) and `BLANK`
(here `blank w`).

* Cells are pairs of integers `(row, column)` (Python tuples of `int`).
* A board is a list of rows of strings, exactly as in the source
  (`list[list[str]]`); a visited cell holds the zero-padded decimal string of
  its step number, an unvisited cell holds the `BLANK` string of dashes.
* The recursive `solve` is modelled fuel-indexed (`solveF`); `none` means the
  fuel ran out.  `blankCount w b + 1` units of fuel are proved sufficient, and
  `solve` runs `solveF` at that fuel.
-/

namespace KnightsTour

abbrev Cell := Int × Int

abbrev Board := List (List String)

/-! ## Step-number formatting (source lines 6-8, 73, 108)

`FORMAT_SIZE = len(str(BOARD_SIZE ** 2))`, `BLANK = "-" * FORMAT_SIZE`, and a
visited cell is written with `f"{step:0{FORMAT_SIZE}d}"`. -/

/-- Little-endian decimal digits, structurally recursive on a fuel bound. -/
def decDigitsAux : Nat → Nat → List Nat
  | 0, _ => []
  | fuel + 1, n => if n = 0 then [] else n % 10 :: decDigitsAux fuel (n / 10)

/-- Little-endian decimal digits of `n`. -/
def decDigits (n : Nat) : List Nat := decDigitsAux n n

/-- The characters of Python's `str(k)` for a natural number `k`. -/
def pyRepr (k : Nat) : List Char :=
  if k = 0 then [Char.ofNat 48]
  else (decDigits k).reverse.map fun d => Char.ofNat (48 + d)

/-- `FORMAT_SIZE = len(str(N ** 2))` (source line 7). -/
def formatSize (N : Nat) : Nat := (pyRepr (N ^ 2)).length

/-- `BLANK = "-" * FORMAT_SIZE` (source line 8). -/
def blank (w : Nat) : String := String.mk (List.replicate w (Char.ofNat 45))

/-- Python's `f"{k:0{w}d}"`: the decimal digits of `k` left-padded with zeros
to width `w` (source lines 73 and 108). -/
def fmtStep (w k : Nat) : String :=
  String.mk (List.replicate (w - (pyRepr k).length) (Char.ofNat 48) ++ pyRepr k)

/-! ## Move generation (source lines 51-65, `getKnightMoves`) -/

/-- The 8 canonical knight offsets, in the source's generation order
(source line 58). -/
def knightOffsets : List (Int × Int) :=
  [(-2, -1), (-2, 1), (-1, -2), (-1, 2), (1, -2), (1, 2), (2, -1), (2, 1)]

/-- `0 <= end_row <= (BOARD_SIZE - 1) and 0 <= end_column <= (BOARD_SIZE - 1)`
(source line 62). -/
def inRangeB (N : Nat) (q : Cell) : Bool :=
  decide (0 ≤ q.1) && decide (q.1 ≤ (N : Int) - 1) &&
  decide (0 ≤ q.2) && decide (q.2 ≤ (N : Int) - 1)

/-- `q` lies inside `[0, N)²`. -/
def inRange (N : Nat) (q : Cell) : Prop :=
  0 ≤ q.1 ∧ q.1 < (N : Int) ∧ 0 ≤ q.2 ∧ q.2 < (N : Int)

instance (N : Nat) (q : Cell) : Decidable (inRange N q) := by
  unfold inRange; infer_instance

/-- The mathematical content of `getKnightMoves` (source lines 51-65): all
in-bounds knight destinations of `p`, in generation order.  The decorator
`@memoize` caches results; the cache is modelled separately below. -/
def getKnightMoves (N : Nat) (p : Cell) : List Cell :=
  (knightOffsets.map fun m => (p.1 + m.1, p.2 + m.2)).filter (inRangeB N)

/-! ## Warnsdorff ordering (source line 104)

`moves.sort(key=lambda i: len(getKnightMoves(i)))` — Python's `list.sort` is a
stable ascending sort by the key; any stable ascending sort computes the same
list, so it is embedded as a stable insertion sort. -/

/-- Stable insertion of `x` into `l`: `x` goes in front of the first element
whose key is not smaller, hence after all earlier elements with equal key. -/
def ordIns {α : Type} (key : α → Nat) (x : α) : List α → List α
  | [] => [x]
  | y :: ys => if key x ≤ key y then x :: y :: ys else y :: ordIns key x ys

/-- Stable ascending sort by `key`, the embedding of `list.sort(key=...)`. -/
def sortKey {α : Type} (key : α → Nat) : List α → List α
  | [] => []
  | x :: xs => ordIns key x (sortKey key xs)

/-- The sort key of source line 104: the number of onward legal moves. -/
def warnKey (N : Nat) (q : Cell) : Nat := (getKnightMoves N q).length

/-! ## Board operations

The source mutates `board[r][c]` in place; the embedding passes boards
explicitly.  `bget`/`bset` use the non-negative indices produced by
`getKnightMoves`; Python's full indexing semantics (negative wrap-around,
`IndexError`) is modelled separately as `pySet2` below. -/

/-- Read `board[r][c]` for a cell with non-negative coordinates. -/
def bget (b : Board) (c : Cell) : String :=
  (b.getD c.1.toNat []).getD c.2.toNat ""

/-- Write `board[r][c] = v` for a cell with non-negative coordinates. -/
def bset (b : Board) (c : Cell) (v : String) : Board :=
  b.set c.1.toNat ((b.getD c.1.toNat []).set c.2.toNat v)

/-- `[[BLANK for _0 in range(BOARD_SIZE)] for _1 in range(BOARD_SIZE)]`
(source line 72). -/
def mkBoard (N w : Nat) : Board := List.replicate N (List.replicate N (blank w))

/-- The board `process_handler` passes to `solve`: blank except the start cell,
which is marked with step 1 (source lines 72-73). -/
def initBoard (N w : Nat) (start : Cell) : Board :=
  bset (mkBoard N w) start (fmtStep w 1)

/-- `b` is a well-formed `N × N` grid. -/
def WB (N : Nat) (b : Board) : Prop :=
  b.length = N ∧ ∀ i, i < N → (b.getD i []).length = N

/-- Number of `BLANK` cells on the board (the measure that bounds the
recursion depth of `solve`). -/
def blankCount (w : Nat) (b : Board) : Nat :=
  (b.map fun row => row.countP fun s => s == blank w).sum

/-- `q` is reached from `p` by one of the 8 canonical knight offsets. -/
def knightAdj (p q : Cell) : Prop := (q.1 - p.1, q.2 - p.2) ∈ knightOffsets

instance (p q : Cell) : Decidable (knightAdj p q) := by
  unfold knightAdj; infer_instance

/-! ## The solver (source lines 92-112, `solve`) -/

/-- The `for move in moves:` loop of `solve` (source lines 106-112), with the
recursive call abstracted as `rec`.  Skips occupied cells, marks a blank
candidate, propagates success (`r.1 = true`, with the board as the recursive
call left it), and on failure clears the mark and continues with the next
candidate.  `none` (fuel exhaustion of `rec`) propagates through `bind`. -/
def loopF (w : Nat) (rec : Board → Cell → Option (Bool × Board)) (step : Nat) :
    Board → List Cell → Option (Bool × Board)
  | b, [] => some (false, b)
  | b, move :: rest =>
    if bget b move = blank w then
      (rec (bset b move (fmtStep w step)) move).bind fun r =>
        if r.1 = true then some r else loopF w rec step (bset r.2 move (blank w)) rest
    else loopF w rec step b rest

/-- Fuel-indexed embedding of `solve(board, point, step)` (source lines
92-112).  Base case: `step == BOARD_SIZE ** 2 + 1` succeeds immediately.
Otherwise the knight moves of `point` are sorted by Warnsdorff's rule and
tried in order.  `none` means the fuel ran out. -/
def solveF (N w : Nat) : Nat → Board → Cell → Nat → Option (Bool × Board)
  | 0, _, _, _ => none
  | fuel + 1, b, p, step =>
    if step = N ^ 2 + 1 then some (true, b)
    else loopF w (fun b2 q => solveF N w fuel b2 q (step + 1)) step b
      (sortKey (warnKey N) (getKnightMoves N p))

/-- `solve(board, point, step)`, run with the (provably sufficient) fuel
`blankCount w b + 1`. -/
def solve (N w : Nat) (b : Board) (p : Cell) (step : Nat) : Option (Bool × Board) :=
  solveF N w (blankCount w b + 1) b p step

/-! ## The orchestrator's invocation (source lines 67-75, `process_handler`)

`process_handler` creates a blank board, marks the start cell with step 1
(`step = 1`), and calls `solve(board, start_point, step + 1)`. -/

/-- The (board, current cell, step) triple with which `process_handler`
invokes `solve` (source lines 69-75). -/
def processInvocation (N w : Nat) (start : Cell) : Board × Cell × Nat :=
  (initBoard N w start, start, 2)

/-! ## The memoization cache (source lines 10-21 and 101-104)

`getKnightMoves` is wrapped by `@memoize`: the wrapper keeps a dictionary
`cache` and returns the *cached list object*.  `solve` then sorts that list
in place (`moves.sort(...)`, line 104), which mutates the cache entry. -/

/-- The `cache` dictionary of the `memoize` wrapper (source line 14). -/
abbrev Cache := Cell → Option (List Cell)

/-- The initially empty cache. -/
def emptyCache : Cache := fun _ => none

/-- One call of the memoized `getKnightMoves` (source lines 16-20): on a miss
the underlying function runs and its result is stored; on a hit the cached
list is returned. -/
def getKnightMovesMemo (N : Nat) (c : Cache) (p : Cell) : List Cell × Cache :=
  match c p with
  | some l => (l, c)
  | none =>
    (getKnightMoves N p, fun q => if q = p then some (getKnightMoves N p) else c q)

/-- Source lines 101-104 as executed by `solve`:
`moves = getKnightMoves(point); moves.sort(key=lambda i: len(getKnightMoves(i)))`.
The in-place `sort` mutates the list object held by the cache, so the cache
entry for `p` becomes the sorted list. -/
def solveMoveQuery (N : Nat) (c : Cache) (p : Cell) : List Cell × Cache :=
  match getKnightMovesMemo N c p with
  | (l, c1) =>
    (sortKey (warnKey N) l, fun q => if q = p then some (sortKey (warnKey N) l) else c1 q)

/-- Cache invariant: every cached list holds the same multiset of cells as a
fresh computation would. -/
def validCache (N : Nat) (c : Cache) : Prop :=
  ∀ p l, c p = some l → l.Perm (getKnightMoves N p)

/-! ## Python assignment semantics for `board[r][c] = v`
(source lines 73 and 108)

Python list indexing accepts negative indices in `[-len, -1]` (they wrap
around) and raises `IndexError` otherwise.  `board[r][c] = v` first evaluates
`board[r]` and then assigns into that row. -/

/-- Python list-index resolution for a list of length `n`: `none` is an
`IndexError`. -/
def pyIdx (n : Nat) (i : Int) : Option Nat :=
  if 0 ≤ i ∧ i < (n : Int) then some i.toNat
  else if -(n : Int) ≤ i ∧ i < 0 then some (i + n).toNat
  else none

/-- The index a negative coordinate silently resolves to. -/
def pyWrap (N : Nat) (i : Int) : Int := if i < 0 then i + N else i

/-- `board[r][c] = v` with Python's indexing semantics: `board[r]` is
evaluated first (raising `IndexError`, here `none`, when it fails), then the
assignment into that row resolves the column index the same way. -/
def pySet2 (b : Board) (r c : Int) (v : String) : Option Board :=
  (pyIdx b.length r).bind fun ri =>
    (pyIdx (b.getD ri []).length c).map fun ci =>
      b.set ri ((b.getD ri []).set ci v)

/-! ## Generic list helpers -/

theorem getD_set_self {α : Type} (l : List α) (i : Nat) (x d : α) (h : i < l.length) :
    (l.set i x).getD i d = x := by
  rw [List.getD_eq_getElem?_getD, List.getElem?_set_self h]
  rfl

theorem getD_set_ne {α : Type} (l : List α) (i j : Nat) (x d : α) (h : i ≠ j) :
    (l.set i x).getD j d = l.getD j d := by
  rw [List.getD_eq_getElem?_getD, List.getElem?_set_ne h, ← List.getD_eq_getElem?_getD]

theorem set_getD_self {α : Type} :
    ∀ (l : List α) (i : Nat) (d : α), i < l.length → l.set i (l.getD i d) = l := by
  intro l
  induction l with
  | nil => intro i d h; simp at h
  | cons a t ih =>
    intro i d h
    cases i with
    | zero => rfl
    | succ j =>
      simp only [List.set, List.getD, List.getElem?_cons_succ, List.cons.injEq, true_and]
      have := ih j d (by simpa using h)
      simpa [List.getD] using this

theorem set_oob {α : Type} (l : List α) (i : Nat) (x : α) (h : l.length ≤ i) :
    l.set i x = l :=
  List.set_eq_of_length_le h

theorem sum_set_nat : ∀ (l : List Nat) (i : Nat) (x : Nat), i < l.length →
    (l.set i x).sum + l.getD i 0 = l.sum + x := by
  intro l
  induction l with
  | nil => intro i x h; simp at h
  | cons a t ih =>
    intro i x h
    cases i with
    | zero => simp [List.getD_cons_zero]; omega
    | succ j =>
      have hj : j < t.length := by simpa using h
      have := ih j x hj
      simp only [List.set_cons_succ, List.sum_cons, List.getD_cons_succ]
      omega

theorem countP_set {α : Type} (p : α → Bool) :
    ∀ (l : List α) (i : Nat) (x d : α), i < l.length →
    (l.set i x).countP p + (if p (l.getD i d) then 1 else 0) =
      l.countP p + (if p x then 1 else 0) := by
  intro l
  induction l with
  | nil => intro i x d h; simp at h
  | cons a t ih =>
    intro i x d h
    cases i with
    | zero =>
      simp only [List.set_cons_zero, List.countP_cons, List.getD_cons_zero]
      split_ifs <;> omega
    | succ j =>
      have hj : j < t.length := by simpa using h
      have := ih j x d hj
      simp only [List.set_cons_succ, List.countP_cons, List.getD_cons_succ]
      split_ifs at this ⊢ <;> omega

theorem getD_append_left {α : Type} (l1 l2 : List α) (i : Nat) (d : α) (h : i < l1.length) :
    (l1 ++ l2).getD i d = l1.getD i d := by
  rw [List.getD_eq_getElem?_getD (l1 ++ l2) i d, List.getElem?_append, if_pos h,
    ← List.getD_eq_getElem?_getD]

theorem getD_concat_length {α : Type} (l : List α) (x d : α) :
    (l ++ [x]).getD l.length d = x := by
  rw [List.getD_eq_getElem?_getD, List.getElem?_append_right (le_refl l.length)]
  simp

theorem getD_mem {α : Type} (l : List α) (i : Nat) (d : α) (h : i < l.length) :
    l.getD i d ∈ l := by
  rw [List.getD_eq_getElem?_getD, List.getElem?_eq_getElem h]
  exact List.getElem_mem h

theorem mem_iff_getD {α : Type} (l : List α) (d a : α) :
    a ∈ l ↔ ∃ i, ∃ h : i < l.length, l.getD i d = a := by
  constructor
  · intro hm
    obtain ⟨i, h, hget⟩ := List.mem_iff_getElem.mp hm
    exact ⟨i, h, by rw [List.getD_eq_getElem?_getD, List.getElem?_eq_getElem h]; exact hget⟩
  · intro ⟨i, h, hget⟩
    exact hget ▸ getD_mem l i d h

/-! ## Properties of the step-number formatting -/

theorem decDigitsAux_eq_digits : ∀ (fuel n : Nat), n ≤ fuel →
    decDigitsAux fuel n = Nat.digits 10 n := by
  intro fuel
  induction fuel with
  | zero =>
    intro n h
    have : n = 0 := by omega
    subst this; simp [decDigitsAux]
  | succ fuel ih =>
    intro n h
    by_cases hn : n = 0
    · subst hn; simp [decDigitsAux]
    · rw [decDigitsAux, if_neg hn, Nat.digits_def' (by norm_num) (Nat.pos_of_ne_zero hn),
        ih (n / 10) (by omega)]

theorem decDigits_eq_digits (n : Nat) : decDigits n = Nat.digits 10 n :=
  decDigitsAux_eq_digits n n le_rfl

theorem charDigit_toNat (d : Nat) (h : d < 10) : (Char.ofNat (48 + d)).toNat = 48 + d := by
  interval_cases d <;> decide

/-- Big-endian decimal decoding of a character list. -/
def decodeChars (cs : List Char) : Nat := cs.foldl (fun a c => a * 10 + (c.toNat - 48)) 0

theorem foldl_digitChars : ∀ (L : List Nat), (∀ d ∈ L, d < 10) → ∀ (a : Nat),
    (L.reverse.map fun d => Char.ofNat (48 + d)).foldl (fun a c => a * 10 + (c.toNat - 48)) a =
      a * 10 ^ L.length + Nat.ofDigits 10 L := by
  intro L
  induction L with
  | nil => intro _ a; simp [Nat.ofDigits_nil]
  | cons d L ih =>
    intro hlt a
    have hd : d < 10 := hlt d (List.mem_cons_self d L)
    have hL : ∀ x ∈ L, x < 10 := fun x hx => hlt x (List.mem_cons_of_mem d hx)
    rw [List.reverse_cons, List.map_append, List.foldl_append, ih hL a]
    simp only [List.map_cons, List.map_nil, List.foldl_cons, List.foldl_nil,
      Nat.ofDigits_cons, List.length_cons, charDigit_toNat d hd]
    have h48 : 48 + d - 48 = d := by omega
    rw [h48]
    ring

theorem decode_pyRepr (k : Nat) : decodeChars (pyRepr k) = k := by
  by_cases hk : k = 0
  · subst hk; decide
  · rw [pyRepr, if_neg hk, decDigits_eq_digits, decodeChars,
      foldl_digitChars (Nat.digits 10 k) (fun d hd => Nat.digits_lt_base (by norm_num) hd) 0,
      Nat.ofDigits_digits]
    ring

theorem foldl_zeroPad : ∀ (m : Nat),
    (List.replicate m (Char.ofNat 48)).foldl (fun a c => a * 10 + (c.toNat - 48)) 0 = 0 := by
  intro m
  induction m with
  | zero => rfl
  | succ m ih => rw [List.replicate_succ, List.foldl_cons]; simpa using ih

theorem decode_fmtStep (w k : Nat) : decodeChars (fmtStep w k).data = k := by
  show decodeChars (List.replicate (w - (pyRepr k).length) (Char.ofNat 48) ++ pyRepr k) = k
  rw [decodeChars, List.foldl_append, foldl_zeroPad]
  exact decode_pyRepr k

theorem fmtStep_inj (w k j : Nat) (h : fmtStep w k = fmtStep w j) : k = j := by
  have := congrArg String.data h
  calc k = decodeChars (fmtStep w k).data := (decode_fmtStep w k).symm
    _ = decodeChars (fmtStep w j).data := by rw [this]
    _ = j := decode_fmtStep w j

theorem pyRepr_ne_nil (k : Nat) : pyRepr k ≠ [] := by
  by_cases hk : k = 0
  · subst hk; simp [pyRepr]
  · rw [pyRepr, if_neg hk]
    simp only [ne_eq, List.map_eq_nil_iff, List.reverse_eq_nil_iff]
    rw [decDigits_eq_digits]
    exact Nat.digits_ne_nil_iff_ne_zero.mpr hk

theorem mem_pyRepr_toNat (k : Nat) (c : Char) (hc : c ∈ pyRepr k) :
    48 ≤ c.toNat ∧ c.toNat ≤ 57 := by
  by_cases hk : k = 0
  · subst hk
    simp only [pyRepr, if_true, eq_self_iff_true, List.mem_singleton] at hc
    subst hc; decide
  · rw [pyRepr, if_neg hk] at hc
    obtain ⟨d, hd, rfl⟩ := List.mem_map.mp hc
    have hd10 : d < 10 := by
      rw [List.mem_reverse, decDigits_eq_digits] at hd
      exact Nat.digits_lt_base (by norm_num) hd
    rw [charDigit_toNat d hd10]
    omega

theorem fmtStep_ne_blank (w k : Nat) : fmtStep w k ≠ blank w := by
  intro h
  have hdata : List.replicate (w - (pyRepr k).length) (Char.ofNat 48) ++ pyRepr k =
      List.replicate w (Char.ofNat 45) := congrArg String.data h
  obtain ⟨c, hc⟩ := List.exists_mem_of_ne_nil (pyRepr k) (pyRepr_ne_nil k)
  have hcmem : c ∈ List.replicate w (Char.ofNat 45) := by
    rw [← hdata]
    exact List.mem_append.mpr (Or.inr hc)
  have : c = Char.ofNat 45 := List.eq_of_mem_replicate hcmem
  have h45 : c.toNat = 45 := by rw [this]; decide
  have := mem_pyRepr_toNat k c hc
  omega

/-- C10: the string encoding of cell states is injective.  For every step
`k` in `[1, N²]` the zero-padded decimal string of width `FORMAT_SIZE` is
distinct from the `BLANK` marker, and distinct steps yield distinct strings,
so the blank-equality test decides visitedness and a visited string determines
its step. -/
theorem C10_state_encoding_injective (N k j : Nat)
    (hk1 : 1 ≤ k) (hk2 : k ≤ N ^ 2) (hj1 : 1 ≤ j) (hj2 : j ≤ N ^ 2) :
    fmtStep (formatSize N) k ≠ blank (formatSize N) ∧
    (k ≠ j → fmtStep (formatSize N) k ≠ fmtStep (formatSize N) j) :=
  ⟨fmtStep_ne_blank _ _, fun hne h => hne (fmtStep_inj _ _ _ h)⟩

/-- Witness for C10 at `N = 8`, `k = 1`, `j = 2`. -/
theorem C10_state_encoding_injective_witness :
    fmtStep (formatSize 8) 1 ≠ blank (formatSize 8) ∧
    fmtStep (formatSize 8) 1 ≠ fmtStep (formatSize 8) 2 :=
  ⟨(C10_state_encoding_injective 8 1 2 (by decide) (by decide) (by decide) (by decide)).1,
   (C10_state_encoding_injective 8 1 2 (by decide) (by decide) (by decide) (by decide)).2
     (by decide)⟩

/-! ## Properties of the move generator -/

theorem inRangeB_iff (N : Nat) (q : Cell) : inRangeB N q = true ↔ inRange N q := by
  simp only [inRangeB, inRange, Bool.and_eq_true, decide_eq_true_eq]
  omega

theorem mem_getKnightMoves_inRange (N : Nat) (p q : Cell)
    (h : q ∈ getKnightMoves N p) : inRange N q :=
  (inRangeB_iff N q).mp (List.of_mem_filter h)

theorem mem_getKnightMoves_adj (N : Nat) (p q : Cell)
    (h : q ∈ getKnightMoves N p) : knightAdj p q := by
  have hmap := List.mem_of_mem_filter h
  obtain ⟨m, hm, hq⟩ := List.mem_map.mp hmap
  subst hq
  simpa [knightAdj] using hm

theorem getKnightMoves_length_le (N : Nat) (p : Cell) :
    (getKnightMoves N p).length ≤ 8 := by
  calc (getKnightMoves N p).length
      ≤ (knightOffsets.map fun m => (p.1 + m.1, p.2 + m.2)).length :=
        List.length_filter_le _ _
    _ = 8 := by simp [knightOffsets]

/-- C8: `movesFrom` only returns in-bounds cells and at most 8 of them. -/
theorem C8_moves_in_bounds_and_at_most_eight (N : Nat) (p : Cell) :
    (∀ q ∈ getKnightMoves N p, inRange N q) ∧ (getKnightMoves N p).length ≤ 8 :=
  ⟨fun q hq => mem_getKnightMoves_inRange N p q hq, getKnightMoves_length_le N p⟩

/-- Witness for C8 at `N = 8`, `p = (0,0)`, candidate `(1,2)`. -/
theorem C8_moves_in_bounds_and_at_most_eight_witness :
    inRange 8 ((1 : Int), (2 : Int)) ∧
    (getKnightMoves 8 ((0 : Int), (0 : Int))).length ≤ 8 :=
  ⟨(C8_moves_in_bounds_and_at_most_eight 8 ((0 : Int), (0 : Int))).1 (1, 2) (by decide),
   (C8_moves_in_bounds_and_at_most_eight 8 ((0 : Int), (0 : Int))).2⟩

/-! ## Properties of the stable Warnsdorff sort -/

theorem ordIns_perm {α : Type} (key : α → Nat) (x : α) :
    ∀ (l : List α), (ordIns key x l).Perm (x :: l) := by
  intro l
  induction l with
  | nil => exact List.Perm.refl _
  | cons y ys ih =>
    rw [ordIns]
    by_cases h : key x ≤ key y
    · rw [if_pos h]
    · rw [if_neg h]
      exact (ih.cons y).trans (List.Perm.swap x y ys)

theorem sortKey_perm {α : Type} (key : α → Nat) :
    ∀ (l : List α), (sortKey key l).Perm l := by
  intro l
  induction l with
  | nil => exact List.Perm.refl _
  | cons x xs ih =>
    rw [sortKey]
    exact (ordIns_perm key x (sortKey key xs)).trans (ih.cons x)

theorem mem_sortKey {α : Type} (key : α → Nat) (l : List α) (q : α) :
    q ∈ sortKey key l ↔ q ∈ l :=
  (sortKey_perm key l).mem_iff

theorem mem_ordIns {α : Type} (key : α → Nat) (x : α) (l : List α) (z : α)
    (h : z ∈ ordIns key x l) : z = x ∨ z ∈ l := by
  have := (ordIns_perm key x l).mem_iff.mp h
  simpa using this

theorem ordIns_pairwise {α : Type} (key : α → Nat) (x : α) :
    ∀ (l : List α), l.Pairwise (fun a b => key a ≤ key b) →
      (ordIns key x l).Pairwise (fun a b => key a ≤ key b) := by
  intro l
  induction l with
  | nil => intro _; simp [ordIns]
  | cons y ys ih =>
    intro hp
    rw [List.pairwise_cons] at hp
    rw [ordIns]
    by_cases h : key x ≤ key y
    · rw [if_pos h]
      refine List.Pairwise.cons ?_ (List.Pairwise.cons hp.1 hp.2)
      intro z hz
      rcases List.mem_cons.mp hz with rfl | hz2
      · exact h
      · exact le_trans h (hp.1 z hz2)
    · rw [if_neg h]
      refine List.Pairwise.cons ?_ (ih hp.2)
      intro z hz
      rcases mem_ordIns key x ys z hz with rfl | hz2
      · omega
      · exact hp.1 z hz2

theorem sortKey_pairwise {α : Type} (key : α → Nat) :
    ∀ (l : List α), (sortKey key l).Pairwise (fun a b => key a ≤ key b) := by
  intro l
  induction l with
  | nil => simp [sortKey]
  | cons x xs ih => exact ordIns_pairwise key x (sortKey key xs) ih

theorem ordIns_filter {α : Type} (key : α → Nat) (x : α) (m : Nat) :
    ∀ (l : List α),
      (ordIns key x l).filter (fun z => key z == m) =
        if key x = m then x :: l.filter (fun z => key z == m)
        else l.filter (fun z => key z == m) := by
  intro l
  induction l with
  | nil =>
    rw [ordIns]
    by_cases h : key x = m <;> simp [List.filter_cons, h]
  | cons y ys ih =>
    rw [ordIns]
    by_cases h : key x ≤ key y
    · rw [if_pos h]
      by_cases hx : key x = m <;> simp [List.filter_cons, hx]
    · rw [if_neg h, List.filter_cons, ih]
      by_cases hy : key y = m
      · have hx : ¬ key x = m := by omega
        simp [hx, hy, List.filter_cons]
      · by_cases hx : key x = m <;> simp [hx, hy, List.filter_cons]

theorem sortKey_filter {α : Type} (key : α → Nat) (m : Nat) :
    ∀ (l : List α),
      (sortKey key l).filter (fun z => key z == m) = l.filter (fun z => key z == m) := by
  intro l
  induction l with
  | nil => rfl
  | cons x xs ih =>
    rw [sortKey, ordIns_filter, List.filter_cons, ih]
    by_cases hx : key x = m <;> simp [hx]

/-- C9: the Warnsdorff ordering is a permutation of its input, sorted
ascending by the count of each candidate's own onward legal moves, and
stable: for every key value, the subsequence of candidates with that
onward-move count is preserved. -/
theorem C9_warnsdorff_sort_stable_perm (N : Nat) (l : List Cell) :
    (sortKey (warnKey N) l).Perm l ∧
    (sortKey (warnKey N) l).Pairwise (fun a b => warnKey N a ≤ warnKey N b) ∧
    ∀ m : Nat, (sortKey (warnKey N) l).filter (fun q => warnKey N q == m) =
      l.filter (fun q => warnKey N q == m) :=
  ⟨sortKey_perm (warnKey N) l, sortKey_pairwise (warnKey N) l,
   fun m => sortKey_filter (warnKey N) m l⟩

/-! ## Board operation lemmas -/

theorem bset_bset (b : Board) (c : Cell) (v v2 : String) :
    bset (bset b c v) c v2 = bset b c v2 := by
  unfold bset
  by_cases hr : c.1.toNat < b.length
  · rw [getD_set_self _ _ _ _ hr, List.set_set, List.set_set]
  · rw [set_oob b _ _ (by omega)]

theorem bset_bget_self (b : Board) (c : Cell) : bset b c (bget b c) = b := by
  unfold bset bget
  by_cases hr : c.1.toNat < b.length
  · by_cases hc : c.2.toNat < (b.getD c.1.toNat []).length
    · rw [set_getD_self _ _ _ hc, set_getD_self b _ [] hr]
    · rw [set_oob (b.getD c.1.toNat []) _ _ (by omega), set_getD_self b _ [] hr]
  · rw [set_oob b _ _ (by omega)]

theorem bget_bset_of_toNat_ne (b : Board) (c c2 : Cell) (v : String)
    (h : c.1.toNat ≠ c2.1.toNat ∨ c.2.toNat ≠ c2.2.toNat) :
    bget (bset b c v) c2 = bget b c2 := by
  unfold bget bset
  by_cases hrow : c.1.toNat = c2.1.toNat
  · have hcol : c.2.toNat ≠ c2.2.toNat := by tauto
    rw [← hrow]
    by_cases hr : c.1.toNat < b.length
    · rw [getD_set_self _ _ _ _ hr, getD_set_ne _ _ _ _ _ hcol]
    · rw [set_oob b _ _ (by omega)]
  · rw [getD_set_ne _ _ _ _ _ hrow]

theorem cell_toNat_ne (N : Nat) (c c2 : Cell) (hc : inRange N c) (hc2 : inRange N c2)
    (hne : c ≠ c2) : c.1.toNat ≠ c2.1.toNat ∨ c.2.toNat ≠ c2.2.toNat := by
  by_contra h
  push_neg at h
  apply hne
  unfold inRange at hc hc2
  have h1 : c.1 = c2.1 := by omega
  have h2 : c.2 = c2.2 := by omega
  exact Prod.ext h1 h2

theorem bget_bset_same (N : Nat) (b : Board) (c : Cell) (v : String)
    (hb : WB N b) (hc : inRange N c) : bget (bset b c v) c = v := by
  have hc1 : c.1.toNat < N := by unfold inRange at hc; omega
  have hr : c.1.toNat < b.length := by rw [hb.1]; exact hc1
  have hrowlen : (b.getD c.1.toNat []).length = N := hb.2 _ hc1
  have hcc : c.2.toNat < (b.getD c.1.toNat []).length := by
    rw [hrowlen]; unfold inRange at hc; omega
  unfold bget bset
  rw [getD_set_self _ _ _ _ hr, getD_set_self _ _ _ _ hcc]

theorem bget_bset_other (N : Nat) (b : Board) (c c2 : Cell) (v : String)
    (hc : inRange N c) (hc2 : inRange N c2) (hne : c ≠ c2) :
    bget (bset b c v) c2 = bget b c2 :=
  bget_bset_of_toNat_ne b c c2 v (cell_toNat_ne N c c2 hc hc2 hne)

theorem WB_bset (N : Nat) (b : Board) (c : Cell) (v : String) (hb : WB N b) :
    WB N (bset b c v) := by
  constructor
  · unfold bset; rw [List.length_set]; exact hb.1
  · intro i hi
    unfold bset
    by_cases hieq : c.1.toNat = i
    · subst hieq
      by_cases hr : c.1.toNat < b.length
      · rw [getD_set_self _ _ _ _ hr, List.length_set]; exact hb.2 _ hi
      · rw [set_oob b _ _ (by omega)]; exact hb.2 _ hi
    · rw [getD_set_ne _ _ _ _ _ hieq]; exact hb.2 _ hi

theorem getD_replicate {α : Type} (n : Nat) (a d : α) (i : Nat) (h : i < n) :
    (List.replicate n a).getD i d = a := by
  rw [List.getD_eq_getElem?_getD, List.getElem?_replicate, if_pos h]
  rfl

theorem WB_mkBoard (N w : Nat) : WB N (mkBoard N w) := by
  constructor
  · simp [mkBoard]
  · intro i hi
    unfold mkBoard
    rw [getD_replicate N _ [] i hi]
    simp

theorem bget_mkBoard (N w : Nat) (c : Cell) (hc : inRange N c) :
    bget (mkBoard N w) c = blank w := by
  have h1 : c.1.toNat < N := by unfold inRange at hc; omega
  have h2 : c.2.toNat < N := by unfold inRange at hc; omega
  unfold bget mkBoard
  rw [getD_replicate N _ [] _ h1, getD_replicate N _ "" _ h2]

theorem blankCount_bset (N w : Nat) (b : Board) (c : Cell) (v : String)
    (hb : WB N b) (hc : inRange N c) (hblank : bget b c = blank w) (hv : v ≠ blank w) :
    blankCount w (bset b c v) + 1 = blankCount w b := by
  have hc1 : c.1.toNat < N := by unfold inRange at hc; omega
  have hr : c.1.toNat < b.length := by rw [hb.1]; exact hc1
  have hrowlen : (b.getD c.1.toNat []).length = N := hb.2 _ hc1
  have hcc : c.2.toNat < (b.getD c.1.toNat []).length := by
    rw [hrowlen]; unfold inRange at hc; omega
  unfold blankCount bset
  rw [List.map_set]
  have hs := sum_set_nat (b.map fun row => row.countP fun s => s == blank w) c.1.toNat
    (((b.getD c.1.toNat []).set c.2.toNat v).countP fun s => s == blank w)
    (by rw [List.length_map]; exact hr)
  have hmap_getD : (b.map fun row => row.countP fun s => s == blank w).getD c.1.toNat 0 =
      (b.getD c.1.toNat []).countP fun s => s == blank w := by
    rw [List.getD_eq_getElem?_getD (b.map fun row => row.countP fun s => s == blank w)
        c.1.toNat 0, List.getElem?_map, List.getElem?_eq_getElem hr,
      List.getD_eq_getElem?_getD b c.1.toNat [], List.getElem?_eq_getElem hr]
    simp
  have hcount := countP_set (fun s => s == blank w) (b.getD c.1.toNat []) c.2.toNat v "" hcc
  unfold bget at hblank
  rw [hblank] at hcount
  have hvb : (v == blank w) = false := by
    rw [beq_eq_false_iff_ne]; exact hv
  simp only [beq_self_eq_true, eq_self_iff_true, if_true, hvb, Bool.false_eq_true,
    if_false] at hcount
  rw [hmap_getD] at hs
  omega

/-! ## The failure-restores-the-board property -/

theorem loopF_nil (w : Nat) (rec : Board → Cell → Option (Bool × Board)) (step : Nat)
    (b : Board) : loopF w rec step b [] = some (false, b) := rfl

theorem loopF_cons (w : Nat) (rec : Board → Cell → Option (Bool × Board)) (step : Nat)
    (b : Board) (move : Cell) (rest : List Cell) :
    loopF w rec step b (move :: rest) =
      if bget b move = blank w then
        (rec (bset b move (fmtStep w step)) move).bind fun r =>
          if r.1 = true then some r else loopF w rec step (bset r.2 move (blank w)) rest
      else loopF w rec step b rest := rfl

theorem solveF_zero (N w : Nat) (b : Board) (p : Cell) (step : Nat) :
    solveF N w 0 b p step = none := rfl

theorem solveF_succ (N w fuel : Nat) (b : Board) (p : Cell) (step : Nat) :
    solveF N w (fuel + 1) b p step =
      if step = N ^ 2 + 1 then some (true, b)
      else loopF w (fun b2 q => solveF N w fuel b2 q (step + 1)) step b
        (sortKey (warnKey N) (getKnightMoves N p)) := rfl

theorem loopF_restore (w : Nat) (rec : Board → Cell → Option (Bool × Board)) (step : Nat)
    (hrec : ∀ b q b2, rec b q = some (false, b2) → b2 = b) :
    ∀ (l : List Cell) (b b2 : Board), loopF w rec step b l = some (false, b2) → b2 = b := by
  intro l
  induction l with
  | nil =>
    intro b b2 h
    rw [loopF_nil] at h
    simp only [Option.some.injEq, Prod.mk.injEq, true_and] at h
    exact h.symm
  | cons move rest ih =>
    intro b b2 h
    rw [loopF_cons] at h
    by_cases hbm : bget b move = blank w
    · rw [if_pos hbm] at h
      rcases hr : rec (bset b move (fmtStep w step)) move with _ | r
      · rw [hr] at h; simp at h
      · rw [hr] at h
        rcases r with ⟨ok, b3⟩
        cases ok
        · simp only [Option.some_bind, Bool.false_eq_true, if_false] at h
          have hb3 : b3 = bset b move (fmtStep w step) := hrec _ _ _ hr
          have hrestore : bset b3 move (blank w) = b := by
            rw [hb3, bset_bset, ← hbm, bset_bget_self]
          rw [hrestore] at h
          exact ih b b2 h
        · simp at h
    · rw [if_neg hbm] at h
      exact ih b b2 h

theorem solveF_restore (N w : Nat) :
    ∀ (fuel : Nat) (b : Board) (p : Cell) (step : Nat) (b2 : Board),
      solveF N w fuel b p step = some (false, b2) → b2 = b := by
  intro fuel
  induction fuel with
  | zero => intro b p step b2 h; rw [solveF_zero] at h; simp at h
  | succ fuel ih =>
    intro b p step b2 h
    rw [solveF_succ] at h
    by_cases hstep : step = N ^ 2 + 1
    · rw [if_pos hstep] at h; simp at h
    · rw [if_neg hstep] at h
      exact loopF_restore w _ step (fun b3 q b4 hh => ih b3 q (step + 1) b4 hh) _ b b2 h

/-- C3: if `solve` returns failure, the board after the call is identical to
the board before the call — every mark made during the failed search was
cleared before returning. -/
theorem C3_failure_leaves_board_unchanged (N w : Nat) (b : Board) (p : Cell) (step : Nat)
    (b2 : Board) (h : solve N w b p step = some (false, b2)) : b2 = b :=
  solveF_restore N w _ b p step b2 h

/-- Witness for C3: a concrete failing search (no knight move fits on a 2×2
board) returns the board it was given. -/
theorem C3_failure_leaves_board_unchanged_witness :
    initBoard 2 2 ((0 : Int), (0 : Int)) = initBoard 2 2 ((0 : Int), (0 : Int)) :=
  C3_failure_leaves_board_unchanged 2 2 (initBoard 2 2 ((0 : Int), (0 : Int)))
    ((0 : Int), (0 : Int)) 2 (initBoard 2 2 ((0 : Int), (0 : Int))) (by decide)

/-! ## Termination: `blankCount w b + 1` units of fuel always suffice -/

theorem solveF_total (N w : Nat) :
    ∀ (fuel : Nat) (b : Board) (p : Cell) (step : Nat), WB N b → blankCount w b < fuel →
      (solveF N w fuel b p step).isSome := by
  intro fuel
  induction fuel with
  | zero => intro b p step _ hcount; exact (Nat.not_lt_zero _ hcount).elim
  | succ fuel ih =>
    intro b p step hb hcount
    rw [solveF_succ]
    by_cases hstep : step = N ^ 2 + 1
    · rw [if_pos hstep]; rfl
    · rw [if_neg hstep]
      have hmov : ∀ q ∈ sortKey (warnKey N) (getKnightMoves N p), inRange N q := by
        intro q hq
        exact mem_getKnightMoves_inRange N p q ((mem_sortKey _ _ q).mp hq)
      have loop : ∀ (l : List Cell), (∀ q ∈ l, inRange N q) → ∀ b2, WB N b2 →
          blankCount w b2 < fuel + 1 →
          (loopF w (fun b3 q => solveF N w fuel b3 q (step + 1)) step b2 l).isSome := by
        intro l
        induction l with
        | nil => intro _ b2 _ _; rw [loopF_nil]; rfl
        | cons move rest ihl =>
          intro hin b2 hb2 hc2
          rw [loopF_cons]
          by_cases hbm : bget b2 move = blank w
          · rw [if_pos hbm]
            have hmv : inRange N move := hin move (List.mem_cons_self move rest)
            have hb1 : WB N (bset b2 move (fmtStep w step)) := WB_bset N b2 move _ hb2
            have hbc : blankCount w (bset b2 move (fmtStep w step)) + 1 = blankCount w b2 :=
              blankCount_bset N w b2 move _ hb2 hmv hbm (fmtStep_ne_blank w step)
            have hrec := ih (bset b2 move (fmtStep w step)) move (step + 1) hb1 (by omega)
            rcases hrecv : solveF N w fuel (bset b2 move (fmtStep w step)) move (step + 1)
              with _ | r
            · rw [hrecv] at hrec; simp at hrec
            · simp only [Option.some_bind]
              rcases r with ⟨ok, b3⟩
              cases ok
              · simp only [Bool.false_eq_true, if_false]
                have hb3 : b3 = bset b2 move (fmtStep w step) :=
                  solveF_restore N w fuel _ move (step + 1) b3 hrecv
                have hrest : bset b3 move (blank w) = b2 := by
                  rw [hb3, bset_bset, ← hbm, bset_bget_self]
                rw [hrest]
                exact ihl (fun q hq => hin q (List.mem_cons_of_mem move hq)) b2 hb2 hc2
              · simp
          · rw [if_neg hbm]
            exact ihl (fun q hq => hin q (List.mem_cons_of_mem move hq)) b2 hb2 hc2
      exact loop _ hmov b hb hcount

theorem WB_initBoard (N w : Nat) (start : Cell) : WB N (initBoard N w start) :=
  WB_bset N (mkBoard N w) start (fmtStep w 1) (WB_mkBoard N w)

/-- C7: `solve` terminates on every input: for every `N × N` board, current
cell and step number, the search returns a definite result (success or
failure) — the fuel `blankCount w b + 1` never runs out. -/
theorem C7_solve_terminates (N w : Nat) (b : Board) (p : Cell) (step : Nat) (hb : WB N b) :
    (solve N w b p step).isSome :=
  solveF_total N w (blankCount w b + 1) b p step hb (Nat.lt_succ_self _)

/-- Witness for C7: the search from corner `(0,0)` on a 5×5 board
terminates. -/
theorem C7_solve_terminates_witness :
    (solve 5 2 (initBoard 5 2 ((0 : Int), (0 : Int))) ((0 : Int), (0 : Int)) 2).isSome :=
  C7_solve_terminates 5 2 (initBoard 5 2 ((0 : Int), (0 : Int))) ((0 : Int), (0 : Int)) 2
    (WB_initBoard 5 2 ((0 : Int), (0 : Int)))

/-! ## The search invariant

At any point of the search the visited cells, in step order, form a single
simple path of knight moves from the start cell: the board holds
`fmtStep w (i+1)` exactly on the `i`-th path cell and `BLANK` everywhere
else, and the current cell is the last path cell. -/

/-- Dummy cell used as a `getD` default; all indexed accesses are in range. -/
def cell0 : Cell := (0, 0)

/-- The board `b` records exactly the cells of `path`: the `i`-th path cell
holds step `i+1` and every other in-range cell is `BLANK`. -/
def pathMarks (N w : Nat) (b : Board) (path : List Cell) : Prop :=
  (∀ i, i < path.length → bget b (path.getD i cell0) = fmtStep w (i + 1)) ∧
  (∀ c : Cell, inRange N c → c ∉ path → bget b c = blank w)

/-- `path` is a simple path of knight moves starting at `start`, inside the
board. -/
def goodPath (N : Nat) (start : Cell) (path : List Cell) : Prop :=
  path.head? = some start ∧ path.Nodup ∧ List.Chain' knightAdj path ∧
  ∀ c ∈ path, inRange N c

/-- The solver's invariant for a frame `(b, p, step)`: the cells visited so
far carry steps `1..step-1` with no gap and no repeat, form one simple knight
path from `start`, and end at the current cell `p`. -/
def SearchInv (N w : Nat) (start : Cell) (b : Board) (p : Cell) (step : Nat) : Prop :=
  WB N b ∧ ∃ path : List Cell, path.length + 1 = step ∧ path.getLast? = some p ∧
    goodPath N start path ∧ pathMarks N w b path

theorem SearchInv_mark (N w : Nat) (start : Cell) (b : Board) (p : Cell) (step : Nat)
    (move : Cell) (hInv : SearchInv N w start b p step)
    (hmv : move ∈ getKnightMoves N p) (hblank : bget b move = blank w) :
    SearchInv N w start (bset b move (fmtStep w step)) move (step + 1) := by
  obtain ⟨hWB, path, hlen, hlast, ⟨hhead, hnodup, hchain, hrange⟩, hmk, hbl⟩ := hInv
  have hmvin : inRange N move := mem_getKnightMoves_inRange N p move hmv
  have hadj : knightAdj p move := mem_getKnightMoves_adj N p move hmv
  have hmove_notin : move ∉ path := by
    intro hmem
    obtain ⟨i, hi, hget⟩ := (mem_iff_getD path cell0 move).mp hmem
    have hstep := hmk i hi
    rw [hget] at hstep
    exact fmtStep_ne_blank w (i + 1) (hstep.symm.trans hblank)
  have hpath_ne : path ≠ [] := by
    intro hnil; rw [hnil] at hhead; simp at hhead
  refine ⟨WB_bset N b move _ hWB, path ++ [move], ?_, ?_, ⟨?_, ?_, ?_, ?_⟩, ?_, ?_⟩
  · rw [List.length_append, List.length_singleton]; omega
  · exact List.getLast?_concat path
  · cases path with
    | nil => exact (hpath_ne rfl).elim
    | cons a t => simpa using hhead
  · rw [List.nodup_append]
    refine ⟨hnodup, List.nodup_singleton move, ?_⟩
    intro x hx hx2
    rw [List.mem_singleton] at hx2
    subst hx2
    exact hmove_notin hx
  · rw [List.chain'_append]
    refine ⟨hchain, List.chain'_singleton move, ?_⟩
    intro x hx y hy
    simp only [List.head?_cons, Option.mem_def, Option.some.injEq] at hy
    rw [hlast] at hx
    simp only [Option.mem_def, Option.some.injEq] at hx
    subst hx; subst hy
    exact hadj
  · intro c hc
    rcases List.mem_append.mp hc with hc1 | hc2
    · exact hrange c hc1
    · rw [List.mem_singleton] at hc2; subst hc2; exact hmvin
  · intro i hi
    have hi2 : i < path.length + 1 := by
      rw [List.length_append, List.length_singleton] at hi; omega
    by_cases hlt : i < path.length
    · rw [getD_append_left path [move] i cell0 hlt]
      have hcm : path.getD i cell0 ∈ path := getD_mem path i cell0 hlt
      have hne : move ≠ path.getD i cell0 := fun he => hmove_notin (he ▸ hcm)
      rw [bget_bset_other N b move (path.getD i cell0) _ hmvin (hrange _ hcm) hne]
      exact hmk i hlt
    · have hieq : i = path.length := by omega
      subst hieq
      rw [getD_concat_length path move cell0, bget_bset_same N b move _ hWB hmvin, hlen]
  · intro c hc hcnot
    have hcne_move : c ≠ move := by
      intro he; subst he
      exact hcnot (List.mem_append.mpr (Or.inr (List.mem_singleton_self _)))
    have hcnot_path : c ∉ path := fun hm => hcnot (List.mem_append.mpr (Or.inl hm))
    rw [bget_bset_other N b move c _ hmvin hc (Ne.symm hcne_move)]
    exact hbl c hc hcnot_path

theorem getD_eq_getElem {α : Type} (l : List α) (i : Nat) (d : α) (h : i < l.length) :
    l.getD i d = l[i] := by
  rw [List.getD_eq_getElem?_getD, List.getElem?_eq_getElem h]
  rfl

theorem SearchInv_init (N w : Nat) (start : Cell) (hin : inRange N start) :
    SearchInv N w start (initBoard N w start) start 2 := by
  refine ⟨WB_initBoard N w start, [start], rfl, rfl,
    ⟨rfl, List.nodup_singleton start, List.chain'_singleton start, ?_⟩, ?_, ?_⟩
  · intro c hc; rw [List.mem_singleton] at hc; subst hc; exact hin
  · intro i hi
    have hi0 : i = 0 := by simpa using hi
    subst hi0
    show bget (initBoard N w start) start = fmtStep w 1
    exact bget_bset_same N (mkBoard N w) start _ (WB_mkBoard N w) hin
  · intro c hc hcn
    rw [List.mem_singleton] at hcn
    unfold initBoard
    rw [bget_bset_other N (mkBoard N w) start c _ hin hc (fun h => hcn h.symm)]
    exact bget_mkBoard N w c hc

theorem SearchInv_backtrack (N w : Nat) (start : Cell) (b : Board) (p : Cell) (s : Nat)
    (move : Cell)
    (hInv : SearchInv N w start (bset b move (fmtStep w s)) move (s + 1))
    (hblank : bget b move = blank w) (hpin : inRange N p)
    (hp : bget b p = fmtStep w (s - 1)) :
    SearchInv N w start b p s := by
  obtain ⟨hWB1, path1, hlen1, hlast1, ⟨hhead1, hnodup1, hchain1, hrange1⟩, hmk1, hbl1⟩ := hInv
  have hb_eq : bset (bset b move (fmtStep w s)) move (blank w) = b := by
    rw [bset_bset, ← hblank, bset_bget_self]
  have hWB : WB N b := by
    rw [← hb_eq]
    exact WB_bset N _ move _ hWB1
  have hpath1_ne : path1 ≠ [] := by intro h0; rw [h0] at hhead1; simp at hhead1
  have hgetlast : path1.getLast hpath1_ne = move := by
    rw [List.getLast?_eq_getLast path1 hpath1_ne] at hlast1
    exact Option.some.inj hlast1
  have hsplit : path1.dropLast ++ [move] = path1 := by
    have h1 := List.dropLast_append_getLast hpath1_ne
    rw [hgetlast] at h1
    exact h1
  have hplen : path1.dropLast.length + 1 = s := by
    have hlength := congrArg List.length hsplit
    rw [List.length_append, List.length_singleton] at hlength
    omega
  have hmvin : inRange N move :=
    hrange1 move (by rw [← hsplit]; exact List.mem_append.mpr (Or.inr (List.mem_singleton_self _)))
  have hmove_notin : move ∉ path1.dropLast := by
    intro hm
    rw [← hsplit, List.nodup_append] at hnodup1
    exact hnodup1.2.2 hm (List.mem_singleton_self _)
  have hbg : ∀ c : Cell, inRange N c → c ≠ move →
      bget (bset b move (fmtStep w s)) c = bget b c :=
    fun c hc hne => bget_bset_other N b move c _ hmvin hc (fun h => hne h.symm)
  have hmk : ∀ i, i < path1.dropLast.length →
      bget b (path1.dropLast.getD i cell0) = fmtStep w (i + 1) := by
    intro i hi
    have hi1 : i < path1.length := by
      have := congrArg List.length hsplit
      rw [List.length_append, List.length_singleton] at this
      omega
    have hgd : path1.getD i cell0 = path1.dropLast.getD i cell0 := by
      conv_lhs => rw [← hsplit]
      exact getD_append_left _ _ i cell0 hi
    have hcm : path1.dropLast.getD i cell0 ∈ path1.dropLast := getD_mem _ i cell0 hi
    have hcin : inRange N (path1.dropLast.getD i cell0) :=
      hrange1 _ ((List.dropLast_sublist path1).subset hcm)
    have hcne : path1.dropLast.getD i cell0 ≠ move := fun he => hmove_notin (he ▸ hcm)
    have h1 := hmk1 i hi1
    rw [hgd] at h1
    rw [← hbg _ hcin hcne]
    exact h1
  have hbl : ∀ c : Cell, inRange N c → c ∉ path1.dropLast → bget b c = blank w := by
    intro c hc hcn
    by_cases hcm : c = move
    · subst hcm; exact hblank
    · rw [← hbg c hc hcm]
      apply hbl1 c hc
      intro hmem1
      rw [← hsplit] at hmem1
      rcases List.mem_append.mp hmem1 with h1 | h2
      · exact hcn h1
      · rw [List.mem_singleton] at h2; exact hcm h2
  by_cases hpmv : p = move
  · exfalso
    subst hpmv
    exact fmtStep_ne_blank w (s - 1) (hp.symm.trans hblank)
  · by_cases hpm : p ∈ path1.dropLast
    · obtain ⟨j, hj, hgetj⟩ := (mem_iff_getD _ cell0 p).mp hpm
      have hmkj := hmk j hj
      rw [hgetj] at hmkj
      have hjs : j + 1 = s - 1 := fmtStep_inj w _ _ (hmkj.symm.trans hp)
      have hjlast : j = path1.dropLast.length - 1 := by omega
      have hlt : path1.dropLast.length - 1 < path1.dropLast.length := by omega
      refine ⟨hWB, path1.dropLast, hplen, ?_, ⟨?_, ?_, ?_, ?_⟩, hmk, hbl⟩
      · rw [List.getLast?_eq_getElem?, List.getElem?_eq_getElem hlt]
        exact congrArg some (by rw [← getD_eq_getElem _ _ cell0 hlt, ← hjlast, hgetj])
      · rw [← hsplit] at hhead1
        rcases hdl : path1.dropLast with _ | ⟨a, t⟩
        · rw [hdl] at hj; simp at hj
        · rw [hdl] at hhead1
          simpa using hhead1
      · exact List.Nodup.sublist (List.dropLast_sublist path1) hnodup1
      · rw [← hsplit] at hchain1
        exact (List.chain'_append.mp hchain1).1
      · intro c hcm2
        exact hrange1 c (by rw [← hsplit]; exact List.mem_append.mpr (Or.inl hcm2))
    · exfalso
      have hbp := hbl p hpin hpm
      rw [hp] at hbp
      exact fmtStep_ne_blank w (s - 1) hbp

/-- A completed tour board: a simple knight path from `start` covering
`N ^ 2` cells, recorded on the board. -/
def FinalBoard (N w : Nat) (start : Cell) (bf : Board) : Prop :=
  WB N bf ∧ ∃ pathf : List Cell, pathf.length = N ^ 2 ∧ goodPath N start pathf ∧
    pathMarks N w bf pathf

theorem loopF_success (N w : Nat) (start : Cell) (p : Cell) (step : Nat) (bf : Board)
    (rec : Board → Cell → Option (Bool × Board))
    (hrec_restore : ∀ b q b2, rec b q = some (false, b2) → b2 = b)
    (hrec_success : ∀ b q b2, SearchInv N w start b q (step + 1) → rec b q = some (true, b2) →
      FinalBoard N w start b2) :
    ∀ (l : List Cell), (∀ q ∈ l, q ∈ getKnightMoves N p) →
      ∀ b, SearchInv N w start b p step →
      loopF w rec step b l = some (true, bf) → FinalBoard N w start bf := by
  intro l
  induction l with
  | nil =>
    intro _ b _ h
    rw [loopF_nil] at h
    simp at h
  | cons move rest ihl =>
    intro hin b hInv h
    rw [loopF_cons] at h
    by_cases hbm : bget b move = blank w
    · rw [if_pos hbm] at h
      have hmv : move ∈ getKnightMoves N p := hin move (List.mem_cons_self move rest)
      rcases hrecv : rec (bset b move (fmtStep w step)) move with _ | r
      · rw [hrecv] at h; simp at h
      · rw [hrecv] at h
        simp only [Option.some_bind] at h
        rcases r with ⟨ok, b3⟩
        cases ok
        · simp only [Bool.false_eq_true, if_false] at h
          have hb3 : b3 = bset b move (fmtStep w step) := hrec_restore _ _ _ hrecv
          have hrest : bset b3 move (blank w) = b := by
            rw [hb3, bset_bset, ← hbm, bset_bget_self]
          rw [hrest] at h
          exact ihl (fun q hq => hin q (List.mem_cons_of_mem move hq)) b hInv h
        · simp only [if_pos, Option.some.injEq, Prod.mk.injEq, true_and] at h
          subst h
          exact hrec_success _ _ _
            (SearchInv_mark N w start b p step move hInv hmv hbm) hrecv
    · rw [if_neg hbm] at h
      exact ihl (fun q hq => hin q (List.mem_cons_of_mem move hq)) b hInv h

theorem solveF_success (N w : Nat) (start : Cell) :
    ∀ (fuel : Nat) (b : Board) (p : Cell) (step : Nat) (bf : Board),
      SearchInv N w start b p step → solveF N w fuel b p step = some (true, bf) →
      FinalBoard N w start bf := by
  intro fuel
  induction fuel with
  | zero => intro b p step bf _ h; rw [solveF_zero] at h; simp at h
  | succ fuel ih =>
    intro b p step bf hInv h
    rw [solveF_succ] at h
    by_cases hstep : step = N ^ 2 + 1
    · rw [if_pos hstep] at h
      simp only [Option.some.injEq, Prod.mk.injEq, true_and] at h
      obtain ⟨hWB, path, hlen, hlast, hgood, hmarks⟩ := hInv
      exact h ▸ ⟨hWB, path, by omega, hgood, hmarks⟩
    · rw [if_neg hstep] at h
      exact loopF_success N w start p step bf _
        (fun b2 q b3 hh => solveF_restore N w fuel b2 q (step + 1) b3 hh)
        (fun b2 q b3 hInv2 hh => ih b2 q (step + 1) b3 hInv2 hh)
        (sortKey (warnKey N) (getKnightMoves N p))
        (fun q hq => (mem_sortKey _ _ q).mp hq) b hInv h

theorem chain'_getD {α : Type} (R : α → α → Prop) (l : List α) (hc : List.Chain' R l)
    (i : Nat) (d : α) (h : i + 1 < l.length) : R (l.getD i d) (l.getD (i + 1) d) := by
  rw [getD_eq_getElem l i d (by omega), getD_eq_getElem l (i + 1) d h]
  have hg := List.chain'_iff_get.mp hc i (by omega)
  simpa [List.get_eq_getElem] using hg

/-- C1: for every board size `N ≥ 5` and start cell, if the top-level search
(start cell marked with step 1, then `solve` called with step 2) succeeds,
the final board holds each step in `[1, N²]` on exactly one cell, no cell is
left `BLANK`, and cells holding consecutive steps differ by a canonical
knight offset. -/
theorem C1_success_board_is_tour (N : Nat) (start : Cell) (bf : Board)
    (hN : 5 ≤ N) (hstart : inRange N start)
    (hrun : solve N (formatSize N) (initBoard N (formatSize N) start) start 2 =
      some (true, bf)) :
    (∀ k, 1 ≤ k → k ≤ N ^ 2 →
      ∃! c : Cell, inRange N c ∧ bget bf c = fmtStep (formatSize N) k) ∧
    (∀ c : Cell, inRange N c → bget bf c ≠ blank (formatSize N)) ∧
    (∀ k (c c2 : Cell), 1 ≤ k → k + 1 ≤ N ^ 2 → inRange N c → inRange N c2 →
      bget bf c = fmtStep (formatSize N) k →
      bget bf c2 = fmtStep (formatSize N) (k + 1) → knightAdj c c2) := by
  have hfin := solveF_success N (formatSize N) start _ _ start 2 bf
    (SearchInv_init N (formatSize N) start hstart) hrun
  obtain ⟨hWB, pathf, hlen, ⟨hhead, hnodup, hchain, hrange⟩, hmk, hbl⟩ := hfin
  have hmemS : ∀ c : Cell,
      c ∈ Finset.Icc (0 : Int) ((N : Int) - 1) ×ˢ Finset.Icc (0 : Int) ((N : Int) - 1) ↔
      inRange N c := by
    intro c
    rw [Finset.mem_product, Finset.mem_Icc, Finset.mem_Icc]
    unfold inRange
    omega
  have hcardS :
      (Finset.Icc (0 : Int) ((N : Int) - 1) ×ˢ Finset.Icc (0 : Int) ((N : Int) - 1)).card =
        N ^ 2 := by
    rw [Finset.card_product, Int.card_Icc]
    have hN' : ((N : Int) - 1 + 1 - 0).toNat = N := by omega
    rw [hN', pow_two]
  have hsubset : pathf.toFinset ⊆
      Finset.Icc (0 : Int) ((N : Int) - 1) ×ˢ Finset.Icc (0 : Int) ((N : Int) - 1) := by
    intro c hc
    rw [List.mem_toFinset] at hc
    exact (hmemS c).mpr (hrange c hc)
  have hcardf : pathf.toFinset.card = N ^ 2 := by
    rw [List.toFinset_card_of_nodup hnodup, hlen]
  have hSeq := Finset.eq_of_subset_of_card_le hsubset (by rw [hcardS, hcardf])
  have hcover : ∀ c : Cell, inRange N c → c ∈ pathf := by
    intro c hc
    rw [← List.mem_toFinset, hSeq, hmemS]
    exact hc
  have hindex : ∀ (k : Nat) (c : Cell), 1 ≤ k → inRange N c →
      bget bf c = fmtStep (formatSize N) k →
      ∃ h : k - 1 < pathf.length, pathf.getD (k - 1) cell0 = c := by
    intro k c hk hc hbc
    obtain ⟨j, hj, hgetj⟩ := (mem_iff_getD pathf cell0 c).mp (hcover c hc)
    have hmkj := hmk j hj
    rw [hgetj] at hmkj
    have hjk : j + 1 = k := fmtStep_inj _ _ _ (hmkj.symm.trans hbc)
    exact ⟨by omega, by rw [show k - 1 = j from by omega]; exact hgetj⟩
  refine ⟨?_, ?_, ?_⟩
  · intro k hk1 hk2
    have hkl : k - 1 < pathf.length := by omega
    refine ⟨pathf.getD (k - 1) cell0, ⟨hrange _ (getD_mem _ _ _ hkl), ?_⟩, ?_⟩
    · have hm := hmk (k - 1) hkl
      rw [show k - 1 + 1 = k from by omega] at hm
      exact hm
    · intro c2 hc2
      obtain ⟨h2, hg2⟩ := hindex k c2 hk1 hc2.1 hc2.2
      exact hg2.symm
  · intro c hc hbc
    obtain ⟨j, hj, hgetj⟩ := (mem_iff_getD pathf cell0 c).mp (hcover c hc)
    have hm := hmk j hj
    rw [hgetj, hbc] at hm
    exact fmtStep_ne_blank _ _ hm.symm
  · intro k c c2 hk1 hk2 hc hc2 hbc hbc2
    obtain ⟨h1, hg1⟩ := hindex k c hk1 hc hbc
    obtain ⟨h2, hg2⟩ := hindex (k + 1) c2 (by omega) hc2 hbc2
    rw [show k + 1 - 1 = k from by omega] at hg2
    have hadj := chain'_getD knightAdj pathf hchain (k - 1) cell0 (by omega)
    rw [hg1, show k - 1 + 1 = k from by omega, hg2] at hadj
    exact hadj

/-- The tour found by the embedded solver on a 5×5 board from `(0,0)`. -/
def exampleTour5 : Board :=
  [["01", "20", "09", "14", "03"], ["10", "15", "02", "19", "24"],
   ["21", "08", "25", "04", "13"], ["16", "11", "06", "23", "18"],
   ["07", "22", "17", "12", "05"]]

set_option maxRecDepth 40000 in
/-- Witness for C1: the 5×5 search from the corner succeeds and step 1 sits
on exactly one cell of the resulting board. -/
theorem C1_success_board_is_tour_witness :
    ∃! c : Cell, inRange 5 c ∧ bget exampleTour5 c = fmtStep (formatSize 5) 1 :=
  (C1_success_board_is_tour 5 ((0 : Int), (0 : Int)) exampleTour5 (by decide) (by decide)
    (by decide)).1 1 (by decide) (by decide)

/-! ## The solver's mark/backtrack step relation (for C2)

One frame step of `solve`: `mark` descends into a blank candidate drawn from
the Warnsdorff-ordered move list (source lines 106-109), `backtrack` undoes
that mark and returns to the caller frame (source line 111).  The caller's
current cell `p` is, as the spec puts it, "the cell with the highest step
number" of the un-marked board: `board[p] = fmtStep (s-1)` and `p` is a board
cell. -/

inductive SolveStep (N w : Nat) : Board × Cell × Nat → Board × Cell × Nat → Prop where
  | mark (b : Board) (p : Cell) (s : Nat) (move : Cell)
      (hmv : move ∈ sortKey (warnKey N) (getKnightMoves N p))
      (hblank : bget b move = blank w) :
      SolveStep N w (b, p, s) (bset b move (fmtStep w s), move, s + 1)
  | backtrack (b : Board) (p : Cell) (s : Nat) (move : Cell)
      (hmv : move ∈ sortKey (warnKey N) (getKnightMoves N p))
      (hblank : bget b move = blank w)
      (hpin : inRange N p) (hp : bget b p = fmtStep w (s - 1)) :
      SolveStep N w (bset b move (fmtStep w s), move, s + 1) (b, p, s)

/-- C2: every state reachable from the initial state (only the start cell
marked, with step 1) by the solver's mark/backtrack step relation satisfies
the search invariant: the visited cells carry steps `1..m` with no gap and no
repeated cell and form, in step order, a single simple path of legal knight
moves beginning at the start cell. -/
theorem C2_reachable_states_satisfy_invariant (N w : Nat) (start : Cell)
    (st : Board × Cell × Nat) (hstart : inRange N start)
    (hreach : Relation.ReflTransGen (SolveStep N w)
      (initBoard N w start, start, 2) st) :
    SearchInv N w start st.1 st.2.1 st.2.2 := by
  induction hreach with
  | refl => exact SearchInv_init N w start hstart
  | tail hsteps hstep ih =>
    cases hstep with
    | mark b p s move hmv hblank =>
      exact SearchInv_mark N w start b p s move ih ((mem_sortKey _ _ move).mp hmv) hblank
    | backtrack b p s move hmv hblank hpin hp =>
      exact SearchInv_backtrack N w start b p s move ih hblank hpin hp

/-- Witness for C2 at the initial state of the 8×8 search from `(0,0)`. -/
theorem C2_reachable_states_satisfy_invariant_witness :
    SearchInv 8 2 ((0 : Int), (0 : Int))
      (initBoard 8 2 ((0 : Int), (0 : Int))) ((0 : Int), (0 : Int)) 2 :=
  C2_reachable_states_satisfy_invariant 8 2 ((0 : Int), (0 : Int))
    (initBoard 8 2 ((0 : Int), (0 : Int)), ((0 : Int), (0 : Int)), 2) (by decide)
    Relation.ReflTransGen.refl

/-! ## C4: how the orchestrator actually invokes the solver -/

/-- C4 counterexample: the orchestrator does not call
`solve(board, start, 1)` on an all-`Unvisited` board.  The step argument it
passes is 2, and the board it passes already holds step 1 on the start
cell. -/
theorem C4_counterexample :
    (processInvocation 8 2 ((0 : Int), (0 : Int))).2.2 = 2 ∧
    ¬ (processInvocation 8 2 ((0 : Int), (0 : Int))).2.2 = 1 ∧
    bget (processInvocation 8 2 ((0 : Int), (0 : Int))).1 ((0 : Int), (0 : Int)) ≠
      blank 2 := by
  decide

/-- C4 amended: for every start cell, `process_handler` creates a blank
board, marks the start cell with step 1, and invokes the solver as
`solve(board, start, 2)`; the initial search state has exactly the start
cell visited (at step 1), current cell the start cell, and next step 2. -/
theorem C4_amended_invocation (N w : Nat) (start : Cell) (hin : inRange N start) :
    processInvocation N w start = (bset (mkBoard N w) start (fmtStep w 1), start, 2) ∧
    bget (processInvocation N w start).1 start = fmtStep w 1 ∧
    (∀ c : Cell, inRange N c → c ≠ start →
      bget (processInvocation N w start).1 c = blank w) := by
  refine ⟨rfl, bget_bset_same N (mkBoard N w) start _ (WB_mkBoard N w) hin, ?_⟩
  intro c hc hne
  show bget (bset (mkBoard N w) start (fmtStep w 1)) c = blank w
  rw [bget_bset_other N (mkBoard N w) start c _ hin hc (fun h => hne h.symm)]
  exact bget_mkBoard N w c hc

/-- Witness for the amended C4 at `N = 8`, start `(0,0)`. -/
theorem C4_amended_invocation_witness :
    bget (processInvocation 8 2 ((0 : Int), (0 : Int))).1 ((0 : Int), (0 : Int)) =
      fmtStep 2 1 :=
  (C4_amended_invocation 8 2 ((0 : Int), (0 : Int)) (by decide)).2.1

/-! ## C5: the memoized move list is mutated by the solver's in-place sort -/

/-- C5 (code defect): `getKnightMoves` is memoized and returns the cached
list object; the solver's `moves.sort(...)` (line 104) sorts that object in
place.  Hence two calls with identical inputs do NOT return the same
sequence when solver activity on that cell occurred in between: here the
first call on `(2,2)` returns the generation order, the call after the
solver's sort returns the Warnsdorff order. -/
theorem C5_cached_moves_mutated_by_sort :
    (getKnightMovesMemo 8
      ((solveMoveQuery 8 ((getKnightMovesMemo 8 emptyCache ((2 : Int), (2 : Int))).2)
        ((2 : Int), (2 : Int))).2) ((2 : Int), (2 : Int))).1 ≠
    (getKnightMovesMemo 8 emptyCache ((2 : Int), (2 : Int))).1 := by
  decide

/-! ## C6: Python assignment semantics of `board[r][c] = v` -/

theorem pyIdx_some_nonneg (n : Nat) (i : Int) (h0 : 0 ≤ i) (h1 : i < (n : Int)) :
    pyIdx n i = some i.toNat := by
  unfold pyIdx
  rw [if_pos ⟨h0, h1⟩]

theorem pyIdx_some_neg (n : Nat) (i : Int) (h0 : -(n : Int) ≤ i) (h1 : i < 0) :
    pyIdx n i = some (i + n).toNat := by
  unfold pyIdx
  rw [if_neg (by omega), if_pos ⟨h0, h1⟩]

theorem pyIdx_none (n : Nat) (i : Int) (h : i < -(n : Int) ∨ (n : Int) ≤ i) :
    pyIdx n i = none := by
  unfold pyIdx
  rw [if_neg (by omega), if_neg (by omega)]

theorem pyIdx_eq_some_wrap (n : Nat) (i : Int) (h0 : -(n : Int) ≤ i) (h1 : i < (n : Int)) :
    pyIdx n i = some (pyWrap n i).toNat := by
  by_cases hneg : i < 0
  · rw [pyIdx_some_neg n i h0 hneg]
    unfold pyWrap
    rw [if_pos hneg]
  · rw [pyIdx_some_nonneg n i (by omega) h1]
    unfold pyWrap
    rw [if_neg hneg]

theorem pyWrap_toNat_lt (N : Nat) (i : Int) (h0 : -(N : Int) ≤ i) (h1 : i < (N : Int)) :
    (pyWrap N i).toNat < N := by
  unfold pyWrap
  split_ifs <;> omega

/-- C6 counterexample: "marking" the cell `(-1, -1)` of an 8×8 board does not
fail with an out-of-range error; Python's negative indexing silently assigns
into cell `(7, 7)`. -/
theorem C6_counterexample :
    ¬ inRange 8 ((-1 : Int), (-1 : Int)) ∧
    pySet2 (mkBoard 8 2) (-1) (-1) (fmtStep 2 1) =
      some (bset (mkBoard 8 2) ((7 : Int), (7 : Int)) (fmtStep 2 1)) := by
  decide

/-- C6 amended: on an `N × N` board, `board[r][c] = v` fails with an
out-of-range error exactly when `r ∉ [-N, N)` or `c ∉ [-N, N)`; inside
`[0, N)²` it sets exactly the cell `(r, c)`; negative coordinates in
`[-N, -1]` do not fail but silently wrap to the cell `(r + N, c + N)`. -/
theorem C6_amended_mark_semantics (N w : Nat) (b : Board) (r c : Int) (v : String)
    (hb : WB N b) :
    (pySet2 b r c v = none ↔
      ¬(-(N : Int) ≤ r ∧ r < (N : Int) ∧ -(N : Int) ≤ c ∧ c < (N : Int))) ∧
    (inRange N (r, c) → pySet2 b r c v = some (bset b (r, c) v)) ∧
    (-(N : Int) ≤ r → r < (N : Int) → -(N : Int) ≤ c → c < (N : Int) →
      pySet2 b r c v = some (bset b (pyWrap N r, pyWrap N c) v)) := by
  have hgen : ∀ (hr0 : -(N : Int) ≤ r) (hr1 : r < (N : Int)) (hc0 : -(N : Int) ≤ c)
      (hc1 : c < (N : Int)),
      pySet2 b r c v = some (bset b (pyWrap N r, pyWrap N c) v) := by
    intro hr0 hr1 hc0 hc1
    unfold pySet2
    rw [hb.1, pyIdx_eq_some_wrap N r hr0 hr1]
    simp only [Option.some_bind]
    rw [hb.2 _ (pyWrap_toNat_lt N r hr0 hr1), pyIdx_eq_some_wrap N c hc0 hc1]
    rfl
  refine ⟨⟨?_, ?_⟩, ?_, fun hr0 hr1 hc0 hc1 => hgen hr0 hr1 hc0 hc1⟩
  · intro h hcontra
    obtain ⟨hr0, hr1, hc0, hc1⟩ := hcontra
    rw [hgen hr0 hr1 hc0 hc1] at h
    simp at h
  · intro h
    unfold pySet2
    rw [hb.1]
    by_cases hrin : -(N : Int) ≤ r ∧ r < (N : Int)
    · rw [pyIdx_eq_some_wrap N r hrin.1 hrin.2]
      simp only [Option.some_bind]
      rw [hb.2 _ (pyWrap_toNat_lt N r hrin.1 hrin.2)]
      have hcout : c < -(N : Int) ∨ (N : Int) ≤ c := by omega
      rw [pyIdx_none N c hcout]
      rfl
    · have hrout : r < -(N : Int) ∨ (N : Int) ≤ r := by omega
      rw [pyIdx_none N r hrout]
      rfl
  · intro hin
    have h1 : 0 ≤ r ∧ r < (N : Int) ∧ 0 ≤ c ∧ c < (N : Int) := hin
    rw [hgen (by omega) h1.2.1 (by omega) h1.2.2.2]
    have hwr : pyWrap N r = r := by unfold pyWrap; rw [if_neg (by omega)]
    have hwc : pyWrap N c = c := by unfold pyWrap; rw [if_neg (by omega)]
    rw [hwr, hwc]

/-- Witness for the amended C6: an in-range assignment on an 8×8 board sets
exactly the requested cell. -/
theorem C6_amended_mark_semantics_witness :
    pySet2 (mkBoard 8 2) 1 2 (fmtStep 2 5) =
      some (bset (mkBoard 8 2) ((1 : Int), (2 : Int)) (fmtStep 2 5)) :=
  (C6_amended_mark_semantics 8 2 (mkBoard 8 2) 1 2 (fmtStep 2 5) (WB_mkBoard 8 2)).2.1
    (by decide)

end KnightsTour
